import Mathlib

/-!
# Verification of the rclone-pool chunk engine

Shallow embedding of the rclone-pool sources (`chunker.py`, `rclonepool.py`,
`manifest.py`, `verification.py`, `advanced_balancer.py`, `redundancy.py`,
`webdav_server.py`, `cache.py`) together with proofs and refutations of the
specified properties.

Bytes are modelled as natural numbers, byte strings as lists.  The rclone
backend (an external subprocess in the source) is passed in as an explicit
oracle wherever a component calls it.  Python integers are embedded as `Int`
where the source can produce negative intermediate values, `Nat` otherwise.
-/

abbrev Byte := Nat

abbrev Bytes := List Byte

/-- Chunk descriptor, from the chunk dicts built in `rclonepool.py` (fields
`index / remote / path / size / offset`, optional `replicas` added by
`redundancy.py`). Replicas are `(remote, path)` pairs. -/
structure Chunk where
  index : Nat
  remote : String
  path : String
  size : Nat
  offset : Nat
  replicas : List (String × String) := []
  deriving Repr, DecidableEq

/-- Manifest, from `ManifestManager.create_manifest` (`manifest.py`); the
`parity_chunks` list is added by `redundancy.py`.  The `version`,
`created_at` and `checksum` fields play no role in any claim and are
omitted. -/
structure Manifest where
  file_name : String
  remote_dir : String
  file_path : String
  file_size : Nat
  chunk_size : Nat
  chunks : List Chunk
  parity_chunks : List Chunk := []
  deriving Repr, DecidableEq

namespace Chunker

/-- Loop body of `Chunker.split_file_streaming` (`chunker.py`): repeatedly
`read(chunk_size)` bytes, yield `(chunk_index, chunk_data, offset,
len(chunk_data))`, advance `offset` and `chunk_index`; stop on an empty
read (which a `read(0)` also produces, hence the `chunkSize = 0` case). -/
def splitGo (chunkSize : Nat) : List Byte → Nat → Nat → List (Nat × List Byte × Nat × Nat)
  | data, index, off =>
    if _h : data = [] ∨ chunkSize = 0 then []
    else
      let piece := data.take chunkSize
      (index, piece, off, piece.length) ::
        splitGo chunkSize (data.drop chunkSize) (index + 1) (off + piece.length)
  termination_by data _ _ => data.length
  decreasing_by
    simp only [not_or] at _h
    simp only [List.length_drop]
    have h1 : 0 < data.length := List.length_pos.mpr _h.1
    have h2 : 0 < chunkSize := Nat.pos_of_ne_zero _h.2
    omega

/-- `Chunker.split_file_streaming` (`chunker.py` lines 18-37). -/
def split_file_streaming (file : List Byte) (chunkSize : Nat) :
    List (Nat × List Byte × Nat × Nat) :=
  splitGo chunkSize file 0 0

/-- `Chunker.get_chunk_count` (`chunker.py` line 41):
`(file_size + chunk_size - 1) // chunk_size`. -/
def get_chunk_count (file_size chunk_size : Nat) : Nat :=
  (file_size + chunk_size - 1) / chunk_size

end Chunker

namespace Chunker

/-- `get_chunk_count` is the ceiling division. -/
theorem get_chunk_count_eq_ceilDiv (fs cs : Nat) : get_chunk_count fs cs = fs ⌈/⌉ cs :=
  rfl

theorem get_chunk_count_zero (cs : Nat) : get_chunk_count 0 cs = 0 := by
  unfold get_chunk_count
  rcases Nat.eq_zero_or_pos cs with h | h
  · subst h
    rfl
  · exact Nat.div_eq_of_lt (by omega)

theorem get_chunk_count_succ (cs n : Nat) (hcs : 0 < cs) (hn : 0 < n) :
    get_chunk_count n cs = get_chunk_count (n - cs) cs + 1 := by
  unfold get_chunk_count
  rcases Nat.lt_or_ge cs n with h | h
  · have h1 : n + cs - 1 = (n - 1) + cs := by omega
    have h2 : n - cs + cs - 1 = (n - cs - 1) + cs := by omega
    have h3 : n - 1 = (n - cs - 1) + cs := by omega
    rw [h1, h2, Nat.add_div_right _ hcs, Nat.add_div_right _ hcs, h3,
      Nat.add_div_right _ hcs]
  · have h1 : n + cs - 1 = (n - 1) + cs := by omega
    have h2 : n - cs = 0 := by omega
    rw [h1, Nat.add_div_right _ hcs, h2]
    have h3 : (n - 1) / cs = 0 := Nat.div_eq_of_lt (by omega)
    have h4 : (0 + cs - 1) / cs = 0 := Nat.div_eq_of_lt (by omega)
    omega

theorem lt_get_chunk_count_iff (cs n k : Nat) (hcs : 0 < cs) :
    k < get_chunk_count n cs ↔ cs * k < n := by
  rw [get_chunk_count_eq_ceilDiv]
  constructor
  · intro h
    by_contra hc
    push_neg at hc
    have : n ⌈/⌉ cs ≤ k := (ceilDiv_le_iff_le_mul hcs).mpr hc
    omega
  · intro h
    by_contra hc
    push_neg at hc
    have : n ≤ cs * k := (ceilDiv_le_iff_le_mul hcs).mp hc
    omega

/-- Closed form of the streaming split: chunk `k` carries the bytes
`[chunkSize * k, chunkSize * (k + 1))` of the remaining data. -/
theorem splitGo_closed (chunkSize : Nat) (hcs : 0 < chunkSize)
    (data : List Byte) (index off : Nat) :
    splitGo chunkSize data index off =
      (List.range (get_chunk_count data.length chunkSize)).map fun k =>
        (index + k, (data.drop (chunkSize * k)).take chunkSize, off + chunkSize * k,
          min chunkSize (data.length - chunkSize * k)) := by
  rw [splitGo]
  by_cases hd : data = []
  · subst hd
    simp [get_chunk_count_zero]
  · have hcs' : chunkSize ≠ 0 := Nat.pos_iff_ne_zero.mp hcs
    have hn : 0 < data.length := List.length_pos.mpr hd
    simp only [hd, hcs', or_self, dite_false]
    rw [get_chunk_count_succ chunkSize data.length hcs hn, List.range_succ_eq_map,
      List.map_cons]
    have ih := splitGo_closed chunkSize hcs (data.drop chunkSize) (index + 1)
      (off + (data.take chunkSize).length)
    rw [ih, List.map_map, List.length_drop]
    simp only [List.cons.injEq]
    constructor
    · simp [List.length_take]
    · apply List.map_congr_left
      intro k hk
      rw [List.mem_range, lt_get_chunk_count_iff chunkSize _ k hcs] at hk
      have hcle : chunkSize ≤ data.length := by omega
      have hplen : (data.take chunkSize).length = chunkSize := by
        rw [List.length_take]
        omega
      simp only [Function.comp_apply, List.drop_drop, hplen, Nat.mul_succ,
        Prod.mk.injEq]
      refine ⟨by omega, ?_, by omega, ?_⟩
      · congr 2
        omega
      · congr 1
        omega
  termination_by data.length
  decreasing_by
    simp only [List.length_drop]
    omega

end Chunker

namespace Chunker

theorem split_length (file : List Byte) (chunkSize : Nat) (hcs : 0 < chunkSize) :
    (split_file_streaming file chunkSize).length =
      get_chunk_count file.length chunkSize := by
  rw [split_file_streaming, splitGo_closed chunkSize hcs file 0 0]
  simp

theorem split_get (file : List Byte) (chunkSize : Nat) (hcs : 0 < chunkSize)
    (k : Nat) (hk : k < (split_file_streaming file chunkSize).length) :
    (split_file_streaming file chunkSize).get ⟨k, hk⟩ =
      (k, (file.drop (chunkSize * k)).take chunkSize, chunkSize * k,
        min chunkSize (file.length - chunkSize * k)) := by
  have hk' := hk
  rw [split_length file chunkSize hcs] at hk'
  simp only [split_file_streaming, splitGo_closed chunkSize hcs file 0 0,
    List.get_eq_getElem, List.getElem_map, List.getElem_range, Nat.zero_add]

end Chunker

namespace Chunker

theorem splitGo_sum (chunkSize : Nat) (hcs : 0 < chunkSize)
    (data : List Byte) (index off : Nat) :
    ((splitGo chunkSize data index off).map fun t => t.2.2.2).sum = data.length := by
  rw [splitGo]
  by_cases hd : data = []
  · simp [hd]
  · have hcs' : chunkSize ≠ 0 := Nat.pos_iff_ne_zero.mp hcs
    have hn : 0 < data.length := List.length_pos.mpr hd
    simp only [hd, hcs', or_self, dite_false, List.map_cons, List.sum_cons]
    rw [splitGo_sum chunkSize hcs (data.drop chunkSize) (index + 1)
      (off + (data.take chunkSize).length)]
    simp only [List.length_take, List.length_drop]
    omega
  termination_by data.length
  decreasing_by
    simp only [List.length_drop]
    omega

theorem split_take_sum (file : List Byte) (chunkSize : Nat) (hcs : 0 < chunkSize)
    (k : Nat) (hk : k < (split_file_streaming file chunkSize).length) :
    (((split_file_streaming file chunkSize).take k).map fun t => t.2.2.2).sum
      = chunkSize * k := by
  have hk' := hk
  rw [split_length file chunkSize hcs] at hk'
  have hkn : chunkSize * k < file.length :=
    (lt_get_chunk_count_iff chunkSize file.length k hcs).mp hk'
  rw [split_file_streaming, splitGo_closed chunkSize hcs file 0 0,
    ← List.map_take, List.take_range, min_eq_left (le_of_lt hk'), List.map_map]
  have hconst : ∀ j ∈ List.range k,
      ((fun t => t.2.2.2) ∘ fun j =>
        ((0 + j : Nat), (file.drop (chunkSize * j)).take chunkSize,
          (0 + chunkSize * j : Nat),
          min chunkSize (file.length - chunkSize * j))) j = chunkSize := by
    intro j hj
    rw [List.mem_range] at hj
    have hle : chunkSize * (j + 1) ≤ chunkSize * k :=
      Nat.mul_le_mul_left chunkSize (by omega)
    have hsucc : chunkSize * (j + 1) = chunkSize * j + chunkSize := Nat.mul_succ _ _
    simp only [Function.comp_apply]
    have : chunkSize ≤ file.length - chunkSize * j := by omega
    omega
  rw [List.map_congr_left hconst, List.map_const', List.sum_replicate,
    List.length_range, smul_eq_mul, Nat.mul_comm]

/-- C2: for a nonempty file and positive chunk size, the streamed split
yields chunks whose sizes sum to the file size, whose offsets are the sums
of the preceding sizes, with every chunk except the last of size exactly
`chunk_size` and every chunk of size at most `chunk_size`; and
`get_chunk_count` is the ceiling `file_size / chunk_size`, which equals
the number of chunks yielded. -/
theorem chunker_split_streaming_layout (file : List Byte) (chunkSize : Nat)
    (hcs : 0 < chunkSize) (_hfs : 0 < file.length) :
    (((split_file_streaming file chunkSize).map fun t => t.2.2.2).sum = file.length)
    ∧ (∀ k (hk : k < (split_file_streaming file chunkSize).length),
        ((split_file_streaming file chunkSize).get ⟨k, hk⟩).2.2.1
          = (((split_file_streaming file chunkSize).take k).map fun t => t.2.2.2).sum)
    ∧ (∀ k (hk : k < (split_file_streaming file chunkSize).length),
        k + 1 < (split_file_streaming file chunkSize).length →
        ((split_file_streaming file chunkSize).get ⟨k, hk⟩).2.2.2 = chunkSize)
    ∧ (∀ k (hk : k < (split_file_streaming file chunkSize).length),
        ((split_file_streaming file chunkSize).get ⟨k, hk⟩).2.2.2 ≤ chunkSize)
    ∧ (split_file_streaming file chunkSize).length
        = get_chunk_count file.length chunkSize
    ∧ get_chunk_count file.length chunkSize = file.length ⌈/⌉ chunkSize := by
  refine ⟨splitGo_sum chunkSize hcs file 0 0, ?_, ?_, ?_, split_length file chunkSize hcs,
    get_chunk_count_eq_ceilDiv file.length chunkSize⟩
  · intro k hk
    rw [split_get file chunkSize hcs k hk, split_take_sum file chunkSize hcs k hk]
  · intro k hk hk1
    rw [split_get file chunkSize hcs k hk]
    have hk1' := hk1
    rw [split_length file chunkSize hcs] at hk1'
    have : chunkSize * (k + 1) < file.length :=
      (lt_get_chunk_count_iff chunkSize file.length (k + 1) hcs).mp hk1'
    have hsucc : chunkSize * (k + 1) = chunkSize * k + chunkSize := Nat.mul_succ _ _
    simp only
    omega
  · intro k hk
    rw [split_get file chunkSize hcs k hk]
    simp only
    omega

/-- Witness for C2 at `file = [10, 11, 12, 13, 14]`, `chunk_size = 2`. -/
theorem chunker_split_streaming_layout_witness :
    0 < 2 ∧ 0 < ([10, 11, 12, 13, 14] : List Byte).length ∧
      ((split_file_streaming [10, 11, 12, 13, 14] 2).map fun t => t.2.2.2).sum
        = ([10, 11, 12, 13, 14] : List Byte).length ∧
      (split_file_streaming [10, 11, 12, 13, 14] 2).length
        = get_chunk_count ([10, 11, 12, 13, 14] : List Byte).length 2 := by
  have h := chunker_split_streaming_layout [10, 11, 12, 13, 14] 2 (by decide) (by decide)
  exact ⟨by decide, by decide, h.1, h.2.2.2.2.1⟩

end Chunker

namespace RclonePool

/-- Chunk ordering used by `sorted(manifest["chunks"], key=lambda c: c["index"])`. -/
def chunkLE (a b : Chunk) : Bool :=
  a.index ≤ b.index

/-- Loop of `RclonePool.download_range` (`rclonepool.py` lines 251-280) over
the index-sorted chunk list.  `dl remote path off len` stands for
`backend.download_byte_range`; `remaining`, `current_offset` and the byte
counts are Python integers, embedded as `Int`. -/
def download_range_go (dl : String → String → Int → Int → Option Bytes) :
    List Chunk → Int → Int → Bytes → Option Bytes
  | [], _, _, result => some result
  | c :: rest, remaining, current_offset, result =>
    let chunk_start : Int := c.offset
    let chunk_end : Int := (c.offset : Int) + c.size
    if chunk_end ≤ current_offset then
      download_range_go dl rest remaining current_offset result
    else if current_offset < chunk_start then
      some result
    else
      let offset_in_chunk := current_offset - chunk_start
      let bytes_from_chunk := min ((c.size : Int) - offset_in_chunk) remaining
      match dl c.remote c.path offset_in_chunk bytes_from_chunk with
      | none => none
      | some data =>
        if remaining - data.length ≤ 0 then some (result ++ data)
        else
          download_range_go dl rest (remaining - data.length)
            (current_offset + data.length) (result ++ data)

/-- `RclonePool.download_range` (`rclonepool.py` lines 245-281), after the
manifest for the file has been loaded successfully (`manifest` is that
manifest; a failed load returns `None` before this code runs). -/
def download_range (dl : String → String → Int → Int → Option Bytes)
    (manifest : Manifest) (offset length : Int) : Option Bytes :=
  download_range_go dl (manifest.chunks.mergeSort chunkLE) length offset []

/-- The contiguous chunk-layout invariant of the data model: starting at
`off`, each chunk begins where the previous one ended. -/
def chunksContiguous : List Chunk → Nat → Prop
  | [], _ => True
  | c :: rest, off => c.offset = off ∧ chunksContiguous rest (off + c.size)

/-- Sum of the sizes of a chunk list. -/
def sizeSum (l : List Chunk) : Nat :=
  (l.map Chunk.size).sum

theorem sizeSum_nil : sizeSum [] = 0 := rfl

theorem sizeSum_cons (c : Chunk) (l : List Chunk) :
    sizeSum (c :: l) = c.size + sizeSum l := by
  simp [sizeSum]

/-- The retrievability assumption: for every chunk of the manifest, a range
request inside the chunk returns the matching slice of the original file
bytes (the chunk object stores `file[c.offset : c.offset + c.size]`). -/
def dlSpec (dl : String → String → Int → Int → Option Bytes)
    (file : Bytes) (l : List Chunk) : Prop :=
  ∀ c ∈ l, ∀ o n : Int, 0 ≤ o → 0 ≤ n → o + n ≤ c.size →
    dl c.remote c.path o n =
      some ((((file.drop c.offset).take c.size).drop o.toNat).take n.toNat)

end RclonePool

namespace RclonePool

theorem download_range_go_cons (dl : String → String → Int → Int → Option Bytes)
    (c : Chunk) (rest : List Chunk) (remaining current_offset : Int) (result : Bytes) :
    download_range_go dl (c :: rest) remaining current_offset result =
      if (c.offset : Int) + c.size ≤ current_offset then
        download_range_go dl rest remaining current_offset result
      else if current_offset < (c.offset : Int) then
        some result
      else
        match dl c.remote c.path (current_offset - c.offset)
            (min ((c.size : Int) - (current_offset - c.offset)) remaining) with
        | none => none
        | some data =>
          if remaining - data.length ≤ 0 then some (result ++ data)
          else
            download_range_go dl rest (remaining - data.length)
              (current_offset + data.length) (result ++ data) := rfl

theorem slice_slice (file : Bytes) (base size o n : Nat) (hon : o + n ≤ size) :
    (((file.drop base).take size).drop o).take n = (file.drop (base + o)).take n := by
  rw [List.drop_take, List.drop_drop, List.take_take]
  congr 1
  omega

theorem take_split (l : Bytes) (m a b : Nat) :
    (l.drop m).take (a + b) = (l.drop m).take a ++ (l.drop (m + a)).take b := by
  rw [List.take_add, List.drop_drop]

theorem download_range_go_correct
    (dl : String → String → Int → Int → Option Bytes) (file : Bytes) :
    ∀ (chunks : List Chunk) (base : Nat) (co rem : Int) (acc : Bytes),
      chunksContiguous chunks base →
      base + sizeSum chunks = file.length →
      dlSpec dl file chunks →
      (base : Int) ≤ co →
      0 ≤ rem →
      co + rem ≤ (file.length : Int) →
      download_range_go dl chunks rem co acc =
        some (acc ++ (file.drop co.toNat).take rem.toNat) := by
  intro chunks
  induction chunks with
  | nil =>
    intro base co rem acc _hcont hsum _hdl hbase hrem hfit
    rw [sizeSum_nil] at hsum
    have hrem0 : rem = 0 := by omega
    subst hrem0
    simp [download_range_go]
  | cons c rest ih =>
    intro base co rem acc hcont hsum hdl hbase hrem hfit
    obtain ⟨hoff, hcont'⟩ := hcont
    rw [sizeSum_cons] at hsum
    have hdl' : dlSpec dl file rest := fun x hx => hdl x (List.mem_cons_of_mem c hx)
    by_cases hskip : ((c.offset : Int) + c.size ≤ co)
    · rw [download_range_go_cons, if_pos hskip]
      exact ih (base + c.size) co rem acc hcont' (by omega) hdl'
        (by push_cast; omega) hrem hfit
    · push_neg at hskip
      have hnb : ¬ (co < (c.offset : Int)) := by omega
      rw [download_range_go_cons, if_neg (by omega), if_neg hnb]
      have hbs : base + c.size ≤ file.length := by omega
      have hbfc0 : 0 ≤ min ((c.size : Int) - (co - c.offset)) rem := by omega
      have hdlc := hdl c (List.mem_cons_self c rest) (co - c.offset)
        (min ((c.size : Int) - (co - c.offset)) rem) (by omega) hbfc0 (by omega)
      rw [hdlc]
      have hdata : ((((file.drop c.offset).take c.size).drop (co - (c.offset : Int)).toNat).take
            (min ((c.size : Int) - (co - c.offset)) rem).toNat)
          = (file.drop co.toNat).take (min ((c.size : Int) - (co - c.offset)) rem).toNat := by
        rw [slice_slice file c.offset c.size _ _ (by omega)]
        have harg : c.offset + (co - (c.offset : Int)).toNat = co.toNat := by omega
        rw [harg]
      rw [hdata]
      have hlendata : ((file.drop co.toNat).take
            (min ((c.size : Int) - (co - c.offset)) rem).toNat).length
          = (min ((c.size : Int) - (co - c.offset)) rem).toNat := by
        rw [List.length_take, List.length_drop]
        omega
      simp only [hlendata]
      by_cases hfin : rem - ((min ((c.size : Int) - (co - c.offset)) rem).toNat : Int) ≤ 0
      · rw [if_pos hfin]
        have : (min ((c.size : Int) - (co - c.offset)) rem).toNat = rem.toNat := by omega
        rw [this]
      · rw [if_neg hfin]
        have hbfc : (min ((c.size : Int) - (co - c.offset)) rem)
            = (c.size : Int) - (co - c.offset) := by omega
        have hco' : (co + ((min ((c.size : Int) - (co - c.offset)) rem).toNat : Int)).toNat
            = base + c.size := by omega
        have := ih (base + c.size)
          (co + ((min ((c.size : Int) - (co - c.offset)) rem).toNat : Int))
          (rem - ((min ((c.size : Int) - (co - c.offset)) rem).toNat : Int))
          (acc ++ (file.drop co.toNat).take (min ((c.size : Int) - (co - c.offset)) rem).toNat)
          hcont' (by omega) hdl' (by push_cast; omega) (by omega) (by omega)
        rw [this, hco']
        have hsplitn : rem.toNat
            = (min ((c.size : Int) - (co - c.offset)) rem).toNat
              + (rem - ((min ((c.size : Int) - (co - c.offset)) rem).toNat : Int)).toNat := by
          omega
        have hgoal : (file.drop co.toNat).take rem.toNat
            = (file.drop co.toNat).take (min ((c.size : Int) - (co - c.offset)) rem).toNat
              ++ (file.drop (base + c.size)).take
                  (rem - ((min ((c.size : Int) - (co - c.offset)) rem).toNat : Int)).toNat := by
          have harg2 : co.toNat + (min ((c.size : Int) - (co - c.offset)) rem).toNat
              = base + c.size := by omega
          rw [hsplitn, take_split, harg2]
        rw [hgoal, List.append_assoc]

end RclonePool

namespace RclonePool

/-- C1: for a manifest satisfying the chunk-layout invariants (index-sorted
chunks, contiguous offsets, sizes summing to the file size) whose chunks are
all retrievable (`dlSpec`), `download_range` with `0 ≤ off`, `0 ≤ len` and
`off + len ≤ file_size` returns exactly bytes `off .. off+len` of the
originally uploaded file.  The concatenation of the slices of the
overlapping chunks, which the loop builds, equals that byte range. -/
theorem download_range_correct
    (dl : String → String → Int → Int → Option Bytes) (file : Bytes) (m : Manifest)
    (hsorted : m.chunks.Pairwise fun a b => chunkLE a b = true)
    (hcont : chunksContiguous m.chunks 0)
    (hsum : sizeSum m.chunks = file.length)
    (hdl : dlSpec dl file m.chunks)
    (off len : Int) (hoff : 0 ≤ off) (hlen : 0 ≤ len)
    (hfit : off + len ≤ (file.length : Int)) :
    download_range dl m off len = some ((file.drop off.toNat).take len.toNat) := by
  rw [download_range, List.mergeSort_of_sorted hsorted]
  have h := download_range_go_correct dl file m.chunks 0 off len [] hcont
    (by omega) hdl (by omega) hlen hfit
  simpa using h

end RclonePool

namespace RclonePool

/-- Backend oracle for the C1 witness: two chunk objects holding the two
slices of the five-byte file `[1, 2, 3, 4, 5]`. -/
def wdl : String → String → Int → Int → Option Bytes :=
  fun _ p o n =>
    some ((((if p = "p0" then [1, 2] else [3, 4, 5]) : Bytes).drop o.toNat).take n.toNat)

/-- Manifest for the C1 witness: two contiguous chunks of sizes 2 and 3. -/
def wman : Manifest :=
  { file_name := "f"
    remote_dir := "/"
    file_path := "/f"
    file_size := 5
    chunk_size := 2
    chunks := [⟨0, "A:", "p0", 2, 0, []⟩, ⟨1, "B:", "p1", 3, 2, []⟩] }

/-- Witness for C1 at `off = 1`, `len = 3` on a five-byte file. -/
theorem download_range_correct_witness :
    download_range wdl wman 1 3 = some [2, 3, 4] := by
  have hdl : dlSpec wdl [1, 2, 3, 4, 5] wman.chunks := by
    intro c hc o n _ _ _
    rcases List.mem_cons.mp hc with h | hc
    · subst h
      rfl
    · rcases List.mem_cons.mp hc with h | hc
      · subst h
        rfl
      · cases hc
  have h := download_range_correct wdl [1, 2, 3, 4, 5] wman
    (by decide) (by constructor <;> simp [chunksContiguous]) (by decide) hdl
    1 3 (by decide) (by decide) (by decide)
  simpa using h

end RclonePool

section AssocHelpers

variable {κ ν : Type} [DecidableEq κ]

/-- First-match association lookup. -/
def assocFind : List (κ × ν) → κ → Option ν
  | [], _ => none
  | e :: rest, k => if e.1 = k then some e.2 else assocFind rest k

/-- Remove every entry with the given key (Python `del d[k]` / object
deletion; keys are unique in all states the code builds). -/
def assocRemove : List (κ × ν) → κ → List (κ × ν)
  | [], _ => []
  | e :: rest, k => if e.1 = k then assocRemove rest k else e :: assocRemove rest k

/-- Python `d[k] = v`: replace in place if present, else append. -/
def assocInsert : List (κ × ν) → κ → ν → List (κ × ν)
  | [], k, v => [(k, v)]
  | e :: rest, k, v => if e.1 = k then (k, v) :: rest else e :: assocInsert rest k v

theorem assocFind_remove_self (l : List (κ × ν)) (k : κ) :
    assocFind (assocRemove l k) k = none := by
  induction l with
  | nil => rfl
  | cons e rest ih =>
    by_cases h : e.1 = k
    · simp [assocRemove, h, ih]
    · simp [assocRemove, assocFind, h, ih]

theorem assocFind_remove_ne (l : List (κ × ν)) (k k' : κ) (h : k' ≠ k) :
    assocFind (assocRemove l k) k' = assocFind l k' := by
  induction l with
  | nil => rfl
  | cons e rest ih =>
    have hkk' : ¬ (k = k') := fun hc => h hc.symm
    by_cases he : e.1 = k
    · simp [assocRemove, assocFind, he, hkk', ih]
    · by_cases he' : e.1 = k'
      · simp [assocRemove, assocFind, he, he', h]
      · simp [assocRemove, assocFind, he, he', ih]

theorem assocFind_foldl_remove_none {α : Type} (f : α → κ) (l : List α)
    (o : List (κ × ν)) (k : κ) (h : assocFind o k = none) :
    assocFind (l.foldl (fun acc y => assocRemove acc (f y)) o) k = none := by
  induction l generalizing o with
  | nil => exact h
  | cons y ys ih =>
    apply ih
    by_cases hk : k = f y
    · rw [hk]
      exact assocFind_remove_self o (f y)
    · rw [assocFind_remove_ne o (f y) k hk]
      exact h

theorem assocFind_foldl_remove_mem {α : Type} (f : α → κ) (l : List α)
    (o : List (κ × ν)) (x : α) (hx : x ∈ l) :
    assocFind (l.foldl (fun acc y => assocRemove acc (f y)) o) (f x) = none := by
  induction l generalizing o with
  | nil => cases hx
  | cons y ys ih =>
    rw [List.foldl_cons]
    rcases List.mem_cons.mp hx with h | h
    · subst h
      apply assocFind_foldl_remove_none
      exact assocFind_remove_self o (f x)
    · exact ih (assocRemove o (f y)) h

theorem assocFind_foldl_remove_other {α : Type} (f : α → κ) (l : List α)
    (o : List (κ × ν)) (k : κ) (h : ∀ x ∈ l, f x ≠ k) :
    assocFind (l.foldl (fun acc y => assocRemove acc (f y)) o) k = assocFind o k := by
  induction l generalizing o with
  | nil => rfl
  | cons y ys ih =>
    rw [List.foldl_cons, ih _ fun x hx => h x (List.mem_cons_of_mem y hx)]
    exact assocFind_remove_ne o (f y) k fun hc => h y (List.mem_cons_self y ys) hc.symm

end AssocHelpers

/-- A stored object on a remote: raw chunk bytes, or a manifest JSON
(which parses back to the manifest it was written from). -/
inductive StoredObj
  | bytesObj (bs : Bytes)
  | manifestObj (m : Manifest)
  deriving Repr, DecidableEq

/-- The federated remote storage (keys `(remote, path)`) together with
`ManifestManager._manifest_cache`. -/
structure PoolState where
  objs : List ((String × String) × StoredObj)
  cache : List (String × Manifest)
  deriving Repr, DecidableEq

namespace ManifestManager

/-- Remove the leading occurrences of a character. -/
def stripLead (c : Char) : List Char → List Char
  | [] => []
  | x :: xs => if x = c then stripLead c xs else x :: xs

/-- Python `str.strip(c)`: drop leading and trailing occurrences of `c`. -/
def stripChar (c : Char) (s : String) : String :=
  ⟨(stripLead c ((stripLead c s.data).reverse)).reverse⟩

/-- Python `file_path.replace('/', '_')`. -/
def slashToUnderscore (s : String) : String :=
  ⟨s.data.map fun ch => if ch = '/' then '_' else ch⟩

/-- Path normalization in `load_manifest_for_file` / `delete_manifest`
(`manifest.py` lines 73-76 and 165-167): `strip('/')`, then prepend the
leading slash (the stripped string never starts with one). -/
def normalizePath (p : String) : String :=
  "/" ++ stripChar '/' p

/-- `ManifestManager._manifest_remote_path` (`manifest.py` lines 43-48). -/
def manifest_remote_path (manifestPre file_path : String) : String :=
  let safe := stripChar '_' (slashToUnderscore file_path)
  let safe := if safe = "" then "root" else safe
  manifestPre ++ "/" ++ safe ++ ".manifest.json"

/-- Scan the remotes in configured order and return the first parseable
manifest object at `mp` (`download_bytes` with errors suppressed; a missing
object or a JSON parse failure moves on to the next remote). -/
def firstManifest (objs : List ((String × String) × StoredObj)) :
    List String → String → Option Manifest
  | [], _ => none
  | r :: rs, mp =>
    match assocFind objs (r, mp) with
    | some (.manifestObj m) => some m
    | _ => firstManifest objs rs mp

/-- `ManifestManager.load_manifest_for_file` (`manifest.py` lines 71-98):
normalize the path, try the in-memory cache, else query the remotes in
order and cache the first hit.  Returns the manifest (if any) and the
state with the updated cache. -/
def load_manifest_for_file (remotes : List String) (manifestPre : String)
    (st : PoolState) (file_path : String) : Option Manifest × PoolState :=
  let fp := normalizePath file_path
  match assocFind st.cache fp with
  | some m => (some m, st)
  | none =>
    let mp := manifest_remote_path manifestPre fp
    match firstManifest st.objs remotes mp with
    | some m => (some m, { st with cache := assocInsert st.cache fp m })
    | none => (none, st)

/-- `ManifestManager.delete_manifest` (`manifest.py` lines 163-179): delete
the manifest object from every remote (errors ignored) and pop the cache
entry. -/
def delete_manifest (remotes : List String) (manifestPre : String)
    (st : PoolState) (file_path : String) : PoolState :=
  let fp := normalizePath file_path
  let mp := manifest_remote_path manifestPre fp
  { objs := remotes.foldl (fun o r => assocRemove o (r, mp)) st.objs
    cache := assocRemove st.cache fp }

end ManifestManager

namespace RclonePool

open ManifestManager

/-- `RclonePool.delete` (`rclonepool.py` lines 309-323): load the manifest;
on failure return `False`.  Otherwise delete each entry of
`manifest["chunks"]` at its `(remote, path)`, then delete the manifest
replicas.  Replica and parity objects are never visited. -/
def delete (remotes : List String) (manifestPre : String)
    (st : PoolState) (remote_path : String) : Bool × PoolState :=
  let res := load_manifest_for_file remotes manifestPre st remote_path
  match res.1 with
  | none => (false, res.2)
  | some m =>
    let st2 := { res.2 with
      objs := m.chunks.foldl (fun o c => assocRemove o (c.remote, c.path)) res.2.objs }
    (true, delete_manifest remotes manifestPre st2 remote_path)

end RclonePool

namespace ManifestManager

theorem load_objs (remotes : List String) (pre : String) (st : PoolState) (rp : String) :
    (load_manifest_for_file remotes pre st rp).2.objs = st.objs := by
  simp only [load_manifest_for_file]
  cases hc : assocFind st.cache (normalizePath rp) with
  | some m => rfl
  | none =>
    cases hf : firstManifest st.objs remotes (manifest_remote_path pre (normalizePath rp)) with
    | some m => rfl
    | none => rfl

theorem firstManifest_none (objs : List ((String × String) × StoredObj))
    (remotes : List String) (mp : String)
    (h : ∀ r ∈ remotes, assocFind objs (r, mp) = none) :
    firstManifest objs remotes mp = none := by
  induction remotes with
  | nil => rfl
  | cons r rs ih =>
    unfold firstManifest
    rw [h r (List.mem_cons_self r rs)]
    exact ih fun x hx => h x (List.mem_cons_of_mem r hx)

theorem load_none (remotes : List String) (pre : String) (st : PoolState) (rp : String)
    (hcache : assocFind st.cache (normalizePath rp) = none)
    (hobjs : ∀ r ∈ remotes,
      assocFind st.objs (r, manifest_remote_path pre (normalizePath rp)) = none) :
    (load_manifest_for_file remotes pre st rp).1 = none := by
  simp only [load_manifest_for_file]
  rw [hcache, firstManifest_none st.objs remotes _ hobjs]

end ManifestManager

namespace RclonePool

open ManifestManager

theorem delete_eq_of_load (remotes : List String) (pre : String) (st : PoolState)
    (rp : String) (m : Manifest)
    (hload : (load_manifest_for_file remotes pre st rp).1 = some m) :
    delete remotes pre st rp =
      (true, delete_manifest remotes pre
        { (load_manifest_for_file remotes pre st rp).2 with
          objs := m.chunks.foldl (fun o c => assocRemove o (c.remote, c.path))
            (load_manifest_for_file remotes pre st rp).2.objs } rp) := by
  simp only [delete]
  rw [hload]

/-- C3 amended: after a successful `delete(path)` every primary data-chunk
object named in `manifest["chunks"]` and every manifest replica is gone,
and a subsequent load returns none; but objects recorded only as chunk
replicas or as parity chunks are never visited and survive in place. -/
theorem delete_removes_primary_and_manifests (remotes : List String) (pre : String)
    (st : PoolState) (rp : String) (m : Manifest) (ok : Bool) (st' : PoolState)
    (hload : (load_manifest_for_file remotes pre st rp).1 = some m)
    (hdel : delete remotes pre st rp = (ok, st')) :
    ok = true
    ∧ (∀ c ∈ m.chunks, assocFind st'.objs (c.remote, c.path) = none)
    ∧ (∀ r ∈ remotes, assocFind st'.objs
        (r, manifest_remote_path pre (normalizePath rp)) = none)
    ∧ (load_manifest_for_file remotes pre st' rp).1 = none
    ∧ (∀ k : String × String,
        (∀ c ∈ m.chunks, (c.remote, c.path) ≠ k) →
        (∀ r ∈ remotes, (r, manifest_remote_path pre (normalizePath rp)) ≠ k) →
        assocFind st'.objs k = assocFind st.objs k) := by
  rw [delete_eq_of_load remotes pre st rp m hload] at hdel
  simp only [Prod.mk.injEq] at hdel
  obtain ⟨hok, hst'⟩ := hdel
  subst hst'
  refine ⟨hok.symm, ?_, ?_, ?_, ?_⟩
  · intro c hc
    simp only [delete_manifest]
    exact assocFind_foldl_remove_none (fun r => (r, _)) remotes _ _
      (assocFind_foldl_remove_mem (fun c => (c.remote, c.path)) m.chunks _ c hc)
  · intro r hr
    simp only [delete_manifest]
    exact assocFind_foldl_remove_mem (fun r => (r, _)) remotes _ r hr
  · apply load_none
    · simp only [delete_manifest]
      exact assocFind_remove_self _ _
    · intro r hr
      simp only [delete_manifest]
      exact assocFind_foldl_remove_mem (fun r => (r, _)) remotes _ r hr
  · intro k hck hmk
    simp only [delete_manifest]
    rw [assocFind_foldl_remove_other (fun r =>
        (r, manifest_remote_path pre (normalizePath rp))) remotes _ k hmk,
      assocFind_foldl_remove_other (fun c => (c.remote, c.path)) m.chunks _ k hck,
      load_objs]

end RclonePool

namespace RclonePool

open ManifestManager

/-- C3 fixture: the single data chunk, with a replica on remote `B:`. -/
def dChunk : Chunk :=
  { index := 0, remote := "A:", path := "rclonepool_data/f.chunk.000", size := 1,
    offset := 0, replicas := [("B:", "rclonepool_data/f.chunk.000")] }

/-- C3 fixture: a parity chunk stored on remote `B:`. -/
def dParity : Chunk :=
  { index := 0, remote := "B:", path := "rclonepool_data/f.parity.000", size := 1,
    offset := 0 }

/-- C3 fixture: manifest of `/f` with one replicated data chunk and one
parity chunk. -/
def dMan : Manifest :=
  { file_name := "f", remote_dir := "/", file_path := "/f", file_size := 1,
    chunk_size := 100, chunks := [dChunk], parity_chunks := [dParity] }

/-- C3 fixture: both remotes hold the manifest; the chunk, its replica and
the parity object are all present. -/
def dState : PoolState :=
  { objs := [(("A:", "rclonepool_data/f.chunk.000"), .bytesObj [7]),
             (("B:", "rclonepool_data/f.chunk.000"), .bytesObj [7]),
             (("B:", "rclonepool_data/f.parity.000"), .bytesObj [9]),
             (("A:", "rclonepool_manifests/f.manifest.json"), .manifestObj dMan),
             (("B:", "rclonepool_manifests/f.manifest.json"), .manifestObj dMan)]
    cache := [] }

/-- C3 counterexample: `delete` reports success, yet the replica object and
the parity object for the file are still present on remote `B:` — the code
iterates only over `manifest["chunks"]` primaries. -/
theorem delete_leaves_replica_and_parity_cex :
    (delete ["A:", "B:"] "rclonepool_manifests" dState "/f").1 = true
    ∧ assocFind (delete ["A:", "B:"] "rclonepool_manifests" dState "/f").2.objs
        ("B:", "rclonepool_data/f.chunk.000") = some (.bytesObj [7])
    ∧ assocFind (delete ["A:", "B:"] "rclonepool_manifests" dState "/f").2.objs
        ("B:", "rclonepool_data/f.parity.000") = some (.bytesObj [9]) := by
  refine ⟨rfl, rfl, rfl⟩

/-- Witness for the amended C3 theorem at the `dState` fixture. -/
theorem delete_removes_primary_and_manifests_witness :
    assocFind (delete ["A:", "B:"] "rclonepool_manifests" dState "/f").2.objs
      ("A:", "rclonepool_data/f.chunk.000") = none
    ∧ (load_manifest_for_file ["A:", "B:"] "rclonepool_manifests"
        (delete ["A:", "B:"] "rclonepool_manifests" dState "/f").2 "/f").1 = none := by
  have h := delete_removes_primary_and_manifests ["A:", "B:"] "rclonepool_manifests"
    dState "/f" dMan
    (delete ["A:", "B:"] "rclonepool_manifests" dState "/f").1
    (delete ["A:", "B:"] "rclonepool_manifests" dState "/f").2
    rfl rfl
  exact ⟨h.2.1 dChunk (List.mem_singleton.mpr rfl), h.2.2.2.1⟩

end RclonePool

/-- `OrphanChunk` dataclass (`verification.py` lines 31-37); `size` is
always filled with `0` by `find_orphans`. -/
structure OrphanChunk where
  remote : String
  path : String
  size : Nat
  deriving Repr, DecidableEq

namespace Verifier

/-- The referenced set built by `Verifier.find_orphans` (`verification.py`
lines 258-265): `(remote, path)` of every manifest's entries in
`manifest.get("chunks", [])` — `parity_chunks` are not visited. -/
def referenced_chunks (manifests : List Manifest) : List (String × String) :=
  (manifests.map fun m => m.chunks.map fun c => (c.remote, c.path)).flatten

/-- One iteration of the per-remote scan (`verification.py` lines 274-298):
list the names under `data_prefix` on the remote (`la r`; `none` models a
listing error and is skipped exactly like an empty listing), and report
every name whose `(remote, prefix + "/" + name)` is not referenced. -/
def scanRemote (dataPre : String) (refs : List (String × String))
    (la : String → Option (List String)) (r : String) : List OrphanChunk :=
  match la r with
  | none => []
  | some files =>
    files.filterMap fun f =>
      if (r, dataPre ++ "/" ++ f) ∈ refs then none
      else some ⟨r, dataPre ++ "/" ++ f, 0⟩

/-- The remote loop of `find_orphans`, accumulating per-remote reports. -/
def orphanScan (dataPre : String) (refs : List (String × String))
    (la : String → Option (List String)) : List String → List OrphanChunk
  | [] => []
  | r :: rs => scanRemote dataPre refs la r ++ orphanScan dataPre refs la rs

/-- `Verifier.find_orphans` (`verification.py` lines 248-307), with the
live manifests already materialized in `manifests` and the per-remote
`backend.list_files` given by `la`. -/
def find_orphans (remotes : List String) (dataPre : String)
    (manifests : List Manifest) (la : String → Option (List String)) :
    List OrphanChunk :=
  orphanScan dataPre (referenced_chunks manifests) la remotes

theorem mem_referenced_chunks (manifests : List Manifest) (k : String × String) :
    k ∈ referenced_chunks manifests ↔
      ∃ m ∈ manifests, ∃ c ∈ m.chunks, (c.remote, c.path) = k := by
  simp [referenced_chunks, List.mem_flatten, List.mem_map]

theorem scanRemote_mem (dataPre : String) (refs : List (String × String))
    (la : String → Option (List String)) (r : String) (o : OrphanChunk) :
    o ∈ scanRemote dataPre refs la r ↔
      o.size = 0 ∧ o.remote = r ∧
      (∃ f ∈ (la r).getD [], o.path = dataPre ++ "/" ++ f) ∧
      (r, o.path) ∉ refs := by
  obtain ⟨orem, opath, osz⟩ := o
  unfold scanRemote
  cases hla : la r with
  | none => simp
  | some files =>
    simp only [List.mem_filterMap, Option.getD_some]
    constructor
    · rintro ⟨f, hf, hsome⟩
      by_cases hm : (r, dataPre ++ "/" ++ f) ∈ refs
      · rw [if_pos hm] at hsome
        cases hsome
      · rw [if_neg hm] at hsome
        rcases Option.some.inj hsome with h
        cases h
        exact ⟨rfl, rfl, ⟨f, hf, rfl⟩, hm⟩
    · rintro ⟨hsz, hrem, ⟨f, hf, hpath⟩, hnotref⟩
      subst hrem hpath hsz
      refine ⟨f, hf, ?_⟩
      rw [if_neg hnotref]

theorem orphanScan_mem (dataPre : String) (refs : List (String × String))
    (la : String → Option (List String)) (remotes : List String) (o : OrphanChunk) :
    o ∈ orphanScan dataPre refs la remotes ↔
      o.size = 0 ∧ o.remote ∈ remotes ∧
      (∃ f ∈ (la o.remote).getD [], o.path = dataPre ++ "/" ++ f) ∧
      (o.remote, o.path) ∉ refs := by
  induction remotes with
  | nil => simp [orphanScan]
  | cons r rs ih =>
    simp only [orphanScan, List.mem_append, scanRemote_mem, ih, List.mem_cons]
    constructor
    · rintro (⟨hsz, hrem, hex, href⟩ | ⟨hsz, hrem, hex, href⟩)
      · subst hrem
        exact ⟨hsz, Or.inl rfl, hex, href⟩
      · exact ⟨hsz, Or.inr hrem, hex, href⟩
    · rintro ⟨hsz, hrem | hrem, hex, href⟩
      · subst hrem
        exact Or.inl ⟨hsz, rfl, hex, href⟩
      · exact Or.inr ⟨hsz, hrem, hex, href⟩

end Verifier

namespace Verifier

/-- C4 fixture: a parity chunk recorded in `parity_chunks` on remote `A:`. -/
def oParity : Chunk :=
  { index := 0, remote := "A:", path := "rclonepool_data/g.parity.000", size := 4,
    offset := 0 }

/-- C4 fixture: a manifest whose only stored object is its parity chunk. -/
def oMan : Manifest :=
  { file_name := "g", remote_dir := "/", file_path := "/g", file_size := 4,
    chunk_size := 100, chunks := [], parity_chunks := [oParity] }

/-- C4 fixture: listing of `data_prefix` on the single remote. -/
def oLa : String → Option (List String) :=
  fun _ => some ["g.parity.000"]

/-- C4 counterexample: the parity chunk is recorded in the manifest's
`parity_chunks`, yet `find_orphans` reports it as an orphan, because the
referenced set is built from `manifest["chunks"]` only. -/
theorem find_orphans_reports_parity_cex :
    (oParity.remote, oParity.path)
        ∈ (oMan.parity_chunks.map fun c => (c.remote, c.path))
    ∧ find_orphans ["A:"] "rclonepool_data" [oMan] oLa
        = [⟨"A:", "rclonepool_data/g.parity.000", 0⟩] := by
  exact ⟨by decide, rfl⟩

/-- C4 amended: `find_orphans` reports exactly the objects listed under
`data_prefix` on a configured remote whose `(remote, path)` is not among
the *data* chunks of any live manifest; parity chunks recorded only in
`parity_chunks` are not in the referenced set, so such objects are
reported. -/
theorem find_orphans_characterization (remotes : List String) (dataPre : String)
    (manifests : List Manifest) (la : String → Option (List String))
    (o : OrphanChunk) :
    o ∈ find_orphans remotes dataPre manifests la ↔
      o.size = 0 ∧ o.remote ∈ remotes ∧
      (∃ f ∈ (la o.remote).getD [], o.path = dataPre ++ "/" ++ f) ∧
      ¬ (∃ m ∈ manifests, ∃ c ∈ m.chunks, (c.remote, c.path) = (o.remote, o.path)) := by
  rw [find_orphans, orphanScan_mem, mem_referenced_chunks]

end Verifier

/-- A planned chunk move, as emitted by `Rebalancer._plan_moves`
(`advanced_balancer.py` lines 527-536). -/
structure Move where
  file_path : String
  chunk_index : Nat
  source_remote : String
  target_remote : String
  chunk_path : String
  size : Nat
  deriving Repr, DecidableEq

namespace Rebalancer

/-- The manifest rewrite in `_execute_moves` (`advanced_balancer.py` lines
603-606): set `chunk["remote"] = target` on the first chunk whose `index`
matches, then `break`. -/
def updateChunkRemote : List Chunk → Nat → String → List Chunk
  | [], _, _ => []
  | c :: cs, idx, tgt =>
    if c.index = idx then { c with remote := tgt } :: cs
    else c :: updateChunkRemote cs idx tgt

/-- State a single move manipulates: the chunk objects on the remotes and
the file's manifest record (what `load_manifest_for_file` returns and
`save_manifest` commits). -/
structure MoveState where
  objs : List ((String × String) × Bytes)
  manifest : Manifest
  deriving Repr, DecidableEq

/-- State after the upload to the target (`upload_bytes`, line 589). -/
def moveS1 (mv : Move) (s0 : MoveState) (data : Bytes) : MoveState :=
  { s0 with objs := assocInsert s0.objs (mv.target_remote, mv.chunk_path) data }

/-- State after the deletion at the source (`delete_file`, line 598). -/
def moveS2 (mv : Move) (s0 : MoveState) (data : Bytes) : MoveState :=
  { moveS1 mv s0 data with
    objs := assocRemove (moveS1 mv s0 data).objs (mv.source_remote, mv.chunk_path) }

/-- State after the manifest update and save (lines 601-607). -/
def moveS3 (mv : Move) (s0 : MoveState) (data : Bytes) : MoveState :=
  { moveS2 mv s0 data with
    manifest := { (moveS2 mv s0 data).manifest with
      chunks := updateChunkRemote (moveS2 mv s0 data).manifest.chunks
        mv.chunk_index mv.target_remote } }

/-- The sequence of states one non-dry-run move passes through
(`advanced_balancer.py` lines 570-610, `Rebalancer._execute_moves`): read
the chunk from the source (a failed download aborts the move and leaves
the state unchanged), upload it to the target, delete it at the source,
and only then update the chunk's `remote` in the manifest and save. -/
def executeMoveStates (mv : Move) (s0 : MoveState) : List MoveState :=
  match assocFind s0.objs (mv.source_remote, mv.chunk_path) with
  | none => [s0]
  | some data => [s0, moveS1 mv s0 data, moveS2 mv s0 data, moveS3 mv s0 data]

/-- The `(remote, path)` the manifest records for data chunk `idx`. -/
def recordedLocation (m : Manifest) (idx : Nat) : Option (String × String) :=
  (m.chunks.find? fun c => c.index == idx).map fun c => (c.remote, c.path)

/-- Formalization of the claimed crash-safety property at one state: the
manifest-recorded location of the moved chunk currently holds bytes. -/
def locationHolds (mv : Move) (s : MoveState) : Bool :=
  match recordedLocation s.manifest mv.chunk_index with
  | none => false
  | some loc => (assocFind s.objs loc).isSome

end Rebalancer

section AssocHelpers2

variable {κ ν : Type} [DecidableEq κ]

theorem assocFind_insert_self (l : List (κ × ν)) (k : κ) (v : ν) :
    assocFind (assocInsert l k v) k = some v := by
  induction l with
  | nil => simp [assocInsert, assocFind]
  | cons e rest ih =>
    by_cases he : e.1 = k
    · simp [assocInsert, assocFind, he]
    · simp [assocInsert, assocFind, he, ih]

theorem assocFind_insert_ne (l : List (κ × ν)) (k k' : κ) (v : ν) (h : k' ≠ k) :
    assocFind (assocInsert l k v) k' = assocFind l k' := by
  have hkk' : ¬ (k = k') := fun hc => h hc.symm
  induction l with
  | nil => simp [assocInsert, assocFind, hkk']
  | cons e rest ih =>
    by_cases he : e.1 = k
    · simp [assocInsert, assocFind, he, hkk']
    · simp [assocInsert, assocFind, he, ih]

end AssocHelpers2

namespace Rebalancer

theorem recordedLocation_update (chunks : List Chunk) (idx : Nat) (tgt r p : String)
    (h : ((chunks.find? fun c => c.index == idx).map fun c => (c.remote, c.path))
      = some (r, p)) :
    (((updateChunkRemote chunks idx tgt).find? fun c => c.index == idx).map
      fun c => (c.remote, c.path)) = some (tgt, p) := by
  induction chunks with
  | nil => exact Option.noConfusion h
  | cons c cs ih =>
    by_cases hc : c.index = idx
    · rw [List.find?_cons_of_pos _ (by simp [hc])] at h
      replace h : (c.remote, c.path) = (r, p) := Option.some.inj h
      have hp : c.path = p := congrArg Prod.snd h
      rw [updateChunkRemote, if_pos hc,
        List.find?_cons_of_pos _ (by simp [hc])]
      simp [hp]
    · rw [List.find?_cons_of_neg _ (by simp [hc])] at h
      rw [updateChunkRemote, if_neg hc,
        List.find?_cons_of_neg _ (by simp [hc])]
      exact ih h

/-- C5 amended: a non-dry-run move executes upload-to-target, then
delete-at-source, and only then the manifest update and save.  The chunk
bytes survive at the source or the target in every intermediate state and
the final state records the target, which holds them; but in the state
between the source deletion and the manifest save the manifest still
records the source, which no longer holds the chunk. -/
theorem execute_move_order (mv : Move) (s0 : MoveState) (data : Bytes)
    (hsrc : assocFind s0.objs (mv.source_remote, mv.chunk_path) = some data)
    (hneq : mv.source_remote ≠ mv.target_remote)
    (hrec : recordedLocation s0.manifest mv.chunk_index
      = some (mv.source_remote, mv.chunk_path)) :
    executeMoveStates mv s0 = [s0, moveS1 mv s0 data, moveS2 mv s0 data, moveS3 mv s0 data]
    ∧ (moveS2 mv s0 data).manifest = s0.manifest
    ∧ (∀ s ∈ executeMoveStates mv s0,
        assocFind s.objs (mv.source_remote, mv.chunk_path) = some data
        ∨ assocFind s.objs (mv.target_remote, mv.chunk_path) = some data)
    ∧ recordedLocation (moveS3 mv s0 data).manifest mv.chunk_index
        = some (mv.target_remote, mv.chunk_path)
    ∧ assocFind (moveS3 mv s0 data).objs (mv.target_remote, mv.chunk_path) = some data
    ∧ recordedLocation (moveS2 mv s0 data).manifest mv.chunk_index
        = some (mv.source_remote, mv.chunk_path)
    ∧ assocFind (moveS2 mv s0 data).objs (mv.source_remote, mv.chunk_path) = none := by
  have hkne : (mv.target_remote, mv.chunk_path) ≠ (mv.source_remote, mv.chunk_path) := by
    intro hc
    exact hneq (congrArg Prod.fst hc).symm
  have hlist : executeMoveStates mv s0
      = [s0, moveS1 mv s0 data, moveS2 mv s0 data, moveS3 mv s0 data] := by
    rw [executeMoveStates, hsrc]
  have htgt1 : assocFind (moveS1 mv s0 data).objs (mv.target_remote, mv.chunk_path)
      = some data := assocFind_insert_self _ _ _
  have htgt2 : assocFind (moveS2 mv s0 data).objs (mv.target_remote, mv.chunk_path)
      = some data := by
    rw [moveS2]
    rw [assocFind_remove_ne _ _ _ hkne]
    exact htgt1
  refine ⟨hlist, rfl, ?_, ?_, htgt2, hrec, assocFind_remove_self _ _⟩
  · intro s hs
    rw [hlist] at hs
    rcases List.mem_cons.mp hs with rfl | hs
    · exact Or.inl hsrc
    · rcases List.mem_cons.mp hs with rfl | hs
      · exact Or.inr htgt1
      · rcases List.mem_cons.mp hs with rfl | hs
        · exact Or.inr htgt2
        · rcases List.mem_cons.mp hs with rfl | hs
          · exact Or.inr htgt2
          · cases hs
  · exact recordedLocation_update _ _ _ _ _ hrec

/-- C5 fixture: the move of chunk 0 of `/f` from `A:` to `B:`. -/
def mvFix : Move :=
  { file_path := "/f", chunk_index := 0, source_remote := "A:",
    target_remote := "B:", chunk_path := "rclonepool_data/f.chunk.000", size := 1 }

/-- C5 fixture: the manifest entry for the moved chunk. -/
def mvChunk : Chunk :=
  { index := 0, remote := "A:", path := "rclonepool_data/f.chunk.000", size := 1,
    offset := 0 }

/-- C5 fixture: the manifest of `/f` before the move. -/
def mvMan : Manifest :=
  { file_name := "f", remote_dir := "/", file_path := "/f",
    file_size := 1, chunk_size := 100, chunks := [mvChunk] }

/-- C5 fixture: initial state, chunk stored on the source only. -/
def mvState0 : MoveState :=
  { objs := [(("A:", "rclonepool_data/f.chunk.000"), [7])]
    manifest := mvMan }

/-- C5 counterexample: in the state between the source deletion and the
manifest save, the manifest-recorded location no longer holds the chunk
bytes, refuting the claimed ordering and its consequence. -/
theorem rebalance_move_order_cex :
    ¬ (∀ s ∈ executeMoveStates mvFix mvState0, locationHolds mvFix s = true) := by
  decide

/-- Witness for the amended C5 theorem at the `mvState0` fixture. -/
theorem execute_move_order_witness :
    recordedLocation (moveS3 mvFix mvState0 [7]).manifest mvFix.chunk_index
      = some (mvFix.target_remote, mvFix.chunk_path)
    ∧ assocFind (moveS2 mvFix mvState0 [7]).objs
        (mvFix.source_remote, mvFix.chunk_path) = none := by
  have h := execute_move_order mvFix mvState0 [7] rfl (by decide) rfl
  exact ⟨h.2.2.2.1, h.2.2.2.2.2.2⟩

end Rebalancer

namespace RedundancyManager

/-- `RedundancyMode` (`redundancy.py` lines 22-28). -/
inductive RedundancyMode
  | NONE
  | REPLICATION
  | PARITY
  | HYBRID
  deriving Repr, DecidableEq

/-- `HealthStatus` (`redundancy.py` lines 49-61), numeric fields and the
recoverability flag (the path and warning strings are only logged). -/
structure HealthStatus where
  total_chunks : Nat
  healthy_chunks : Nat
  degraded_chunks : Nat
  missing_chunks : Nat
  parity_chunks : Nat
  parity_healthy : Nat
  is_recoverable : Bool
  deriving Repr, DecidableEq

/-- `RedundancyManager._check_chunk_exists` (`redundancy.py` lines
568-583): a one-byte range read succeeds iff the object is present. -/
def chunkExists (objs : List ((String × String) × Bytes)) (r p : String) : Bool :=
  (assocFind objs (r, p)).isSome

/-- The per-chunk classification loop of `check_health` (`redundancy.py`
lines 359-403), producing `(healthy, degraded, missing)` counts. -/
def healthCounts (rf : Nat) (objs : List ((String × String) × Bytes)) :
    List Chunk → Nat × Nat × Nat
  | [] => (0, 0, 0)
  | c :: cs =>
    let t := healthCounts rf objs cs
    let hr := (c.replicas.filter fun rp => chunkExists objs rp.1 rp.2).length
    if chunkExists objs c.remote c.path then
      if hr + 1 ≥ rf then (t.1 + 1, t.2.1, t.2.2)
      else if hr > 0 then (t.1, t.2.1 + 1, t.2.2)
      else (t.1 + 1, t.2.1, t.2.2)
    else
      if hr > 0 then (t.1, t.2.1 + 1, t.2.2)
      else (t.1, t.2.1, t.2.2 + 1)

/-- `RedundancyManager.check_health` (`redundancy.py` lines 324-443) after
a successful manifest load. -/
def check_health (mode : RedundancyMode) (rf : Nat)
    (objs : List ((String × String) × Bytes)) (m : Manifest) : HealthStatus :=
  let t := healthCounts rf objs m.chunks
  let ph := (m.parity_chunks.filter fun pc => chunkExists objs pc.remote pc.path).length
  let recoverable : Bool :=
    match mode with
    | .PARITY => decide (t.2.2 ≤ ph)
    | .HYBRID => decide (t.2.2 ≤ ph)
    | .REPLICATION => decide (t.2.2 = 0)
    | .NONE => decide (t.2.2 = 0)
  { total_chunks := m.chunks.length, healthy_chunks := t.1,
    degraded_chunks := t.2.1, missing_chunks := t.2.2,
    parity_chunks := m.parity_chunks.length, parity_healthy := ph,
    is_recoverable := recoverable }

/-- One iteration of the rebuild loop (`redundancy.py` lines 474-510): a
chunk whose primary is missing is restored from the first present replica
(download, then upload to the primary location).  With no replica present
and PARITY/HYBRID mode, the code only logs
"Parity reconstruction not yet implemented" and restores nothing. -/
def rebuildChunk (objs : List ((String × String) × Bytes)) (c : Chunk) :
    List ((String × String) × Bytes) :=
  if chunkExists objs c.remote c.path then objs
  else
    match c.replicas.find? (fun rp => chunkExists objs rp.1 rp.2) with
    | some rp =>
      match assocFind objs rp with
      | some data => assocInsert objs (c.remote, c.path) data
      | none => objs
    | none => objs

/-- `RedundancyManager.rebuild_file` (`redundancy.py` lines 445-523) after
a successful manifest load: check health, restore what replicas allow,
re-check, and succeed only if nothing is missing afterwards. -/
def rebuild_file (mode : RedundancyMode) (rf : Nat)
    (objs : List ((String × String) × Bytes)) (m : Manifest) :
    Bool × List ((String × String) × Bytes) :=
  let health := check_health mode rf objs m
  if health.is_recoverable = false then (false, objs)
  else if health.missing_chunks = 0 ∧ health.degraded_chunks = 0 then (true, objs)
  else
    let objs2 := m.chunks.foldl rebuildChunk objs
    let final := check_health mode rf objs2 m
    (decide (final.missing_chunks = 0), objs2)

/-- C6 fixture: three data chunks on `A: B: C:` with no replicas. -/
def rChunks : List Chunk :=
  [⟨0, "A:", "rclonepool_data/h.chunk.000", 2, 0, []⟩,
   ⟨1, "B:", "rclonepool_data/h.chunk.001", 2, 2, []⟩,
   ⟨2, "C:", "rclonepool_data/h.chunk.002", 2, 4, []⟩]

/-- C6 fixture: one parity chunk on `D:`. -/
def rParity : Chunk :=
  ⟨0, "D:", "rclonepool_data/h.parity.000", 2, 0, []⟩

/-- C6 fixture: manifest of `/h` with a complete parity group. -/
def rMan : Manifest :=
  { file_name := "h", remote_dir := "/", file_path := "/h",
    file_size := 6, chunk_size := 2, chunks := rChunks,
    parity_chunks := [rParity] }

/-- C6 fixture: chunk 0 has been deleted; chunks 1, 2 and the parity
chunk survive, so the file is recoverable by erasure decoding. -/
def rObjs : List ((String × String) × Bytes) :=
  [(("B:", "rclonepool_data/h.chunk.001"), [3, 4]),
   (("C:", "rclonepool_data/h.chunk.002"), [5, 6]),
   (("D:", "rclonepool_data/h.parity.000"), [6, 2])]

/-- C6: in PARITY mode with one data chunk deleted and no replicas,
`check_health` declares the file recoverable, yet `rebuild_file` restores
nothing (its parity branch is the unimplemented stub at `redundancy.py`
lines 502-510) and terminates reporting failure with one chunk still
missing — refuting the claim that rebuild erasure-decodes the chunk and
succeeds with `missing = 0`. -/
theorem rebuild_parity_not_implemented :
    (check_health .PARITY 1 rObjs rMan).missing_chunks = 1
    ∧ (check_health .PARITY 1 rObjs rMan).parity_healthy = 1
    ∧ (check_health .PARITY 1 rObjs rMan).is_recoverable = true
    ∧ rebuild_file .PARITY 1 rObjs rMan = (false, rObjs) := by
  exact ⟨rfl, rfl, rfl, rfl⟩

end RedundancyManager

namespace ManifestManager

/-- `ManifestManager.save_manifest` (`manifest.py` lines 50-69): upload the
manifest JSON to its manifest path on every configured remote (`up r mp`
is the Bool result of `backend.upload_bytes`; a `False` only produces a
log line), then cache the manifest locally under `manifest["file_path"]`.
The Python function body has no `return` statement and no reachable
`raise`, so the caller always observes normal completion; the embedding
records the per-remote outcomes and the updated cache under `Except.ok`,
with `Except.error` reserved for a failure report — which the code never
produces. -/
def save_manifest (up : String → String → Bool) (remotes : List String)
    (manifestPre : String) (m : Manifest) (cache : List (String × Manifest)) :
    Except String (List (String × Bool) × List (String × Manifest)) :=
  let mp := manifest_remote_path manifestPre m.file_path
  Except.ok (remotes.map fun r => (r, up r mp), assocInsert cache m.file_path m)

/-- C7 fixture: a backend on which every upload fails. -/
def failUp : String → String → Bool := fun _ _ => false

/-- C7 fixture: the manifest being saved. -/
def sMan : Manifest :=
  { file_name := "s", remote_dir := "/", file_path := "/s",
    file_size := 1, chunk_size := 100,
    chunks := [⟨0, "A:", "rclonepool_data/s.chunk.000", 1, 0, []⟩] }

/-- C7 counterexample: with a single remote whose upload fails, every
remote failed, yet `save_manifest` completes without reporting failure —
refuting "the call reports failure iff the upload failed on every
remote". -/
theorem save_manifest_reports_failure_cex :
    ¬ ((∃ e, save_manifest failUp ["A:"] "rclonepool_manifests" sMan [] = .error e)
        ↔ ∀ r ∈ (["A:"] : List String),
            failUp r (manifest_remote_path "rclonepool_manifests" sMan.file_path)
              = false) := by
  intro h
  rcases h.mpr (fun r _ => rfl) with ⟨e, he⟩
  simp [save_manifest] at he

/-- C7 amended: `save_manifest` attempts the manifest upload on every
configured remote in order and caches the manifest locally; per-remote
failures are only logged, and the call never reports failure — even when
the upload failed on every remote. -/
theorem save_manifest_best_effort (up : String → String → Bool)
    (remotes : List String) (manifestPre : String) (m : Manifest)
    (cache : List (String × Manifest)) :
    (¬ ∃ e, save_manifest up remotes manifestPre m cache = .error e)
    ∧ (∃ res, save_manifest up remotes manifestPre m cache = .ok res
        ∧ res.1.map Prod.fst = remotes
        ∧ (∀ rb ∈ res.1, rb.2 = up rb.1 (manifest_remote_path manifestPre m.file_path))
        ∧ assocFind res.2 m.file_path = some m) := by
  refine ⟨?_, ⟨_, rfl, ?_, ?_, assocFind_insert_self _ _ _⟩⟩
  · rintro ⟨e, he⟩
    simp [save_manifest] at he
  · simp [List.map_map, Function.comp_def]
  · intro rb hrb
    rcases List.mem_map.mp hrb with ⟨r, _, rfl⟩
    rfl

end ManifestManager

namespace WebDAVHandler

/-- A successfully parsed `Range` header (`webdav_server.py` lines
117-129): `bytes=-n` (suffix), `bytes=a-`, `bytes=a-b`.  A suffix length
is parsed with Python `int()` and may be negative (e.g. `bytes=--5`); in
the other two forms the number cannot be negative, since a leading `-`
would have selected the suffix branch and `"a".split('-')` pieces carry
no sign. -/
inductive RangeForm
  | suffix (n : Int)
  | fromStart (a : Nat)
  | startEnd (a : Nat) (b : Nat)
  deriving Repr, DecidableEq

/-- `(start, end)` before clamping (`webdav_server.py` lines 119-129). -/
def rawRange (file_size : Int) : RangeForm → Int × Int
  | .suffix n => (max 0 (file_size - n), file_size - 1)
  | .fromStart a => ((a : Int), file_size - 1)
  | .startEnd a b => ((a : Int), (b : Int))

def rangeStart (file_size : Int) (form : RangeForm) : Int :=
  (rawRange file_size form).1

/-- `end` after the clamp `end = min(end, file_size - 1)` (line 132). -/
def rangeEnd (file_size : Int) (form : RangeForm) : Int :=
  min (rawRange file_size form).2 (file_size - 1)

/-- `length = end - start + 1` (line 133). -/
def rangeLength (file_size : Int) (form : RangeForm) : Int :=
  rangeEnd file_size form - rangeStart file_size form + 1

/-- Response of the Range branch of `do_GET`: 416 carries
`Content-Range: bytes */size`; 206 carries
`Content-Range: bytes start-stop/size` and the body; 500 is the
failed-read branch. -/
inductive RangeResponse
  | r416 (size : Int)
  | r206 (start stop size : Int) (body : Bytes)
  | r500
  deriving Repr, DecidableEq

/-- The Range branch of `WebDAVHandler.do_GET` (`webdav_server.py` lines
115-152) on an existing file of size `file_size`, after the header parsed
to `form`; `dl off len` stands for `pool.download_range(path, off, len)`. -/
def do_GET_range (dl : Int → Int → Option Bytes) (file_size : Int)
    (form : RangeForm) : RangeResponse :=
  let start := rangeStart file_size form
  let stop := rangeEnd file_size form
  let length := stop - start + 1
  if start ≥ file_size ∨ start < 0 ∨ length ≤ 0 then .r416 file_size
  else
    match dl start length with
    | none => .r500
    | some data => .r206 start stop file_size data

/-- `Content-Length` of a 206 response (line 149: `str(len(data))`). -/
def contentLength : RangeResponse → Nat
  | .r206 _ _ _ body => body.length
  | _ => 0

theorem rangeStart_nonneg (file_size : Int) (form : RangeForm) :
    0 ≤ rangeStart file_size form := by
  cases form with
  | suffix n => exact le_max_left 0 (file_size - n)
  | fromStart a => exact Int.natCast_nonneg a
  | startEnd a b => exact Int.natCast_nonneg a

/-- C8: after parsing the three Range forms and clamping
`end ≤ size - 1`, the handler responds 416 with `Content-Range: bytes
*/size` exactly when `start ≥ size` or the computed length is `≤ 0`;
otherwise (when the range read succeeds) it responds 206 with
`Content-Range: bytes start-end/size`, a body equal to
`downloadRange(path, start, end - start + 1)`, and a `Content-Length`
equal to the body length. -/
theorem webdav_range_request_correct (dl : Int → Int → Option Bytes)
    (file_size : Int) (form : RangeForm) :
    (do_GET_range dl file_size form = .r416 file_size ↔
      (rangeStart file_size form ≥ file_size ∨ rangeLength file_size form ≤ 0))
    ∧ (∀ data : Bytes,
        dl (rangeStart file_size form) (rangeLength file_size form) = some data →
        ¬ (rangeStart file_size form ≥ file_size ∨ rangeLength file_size form ≤ 0) →
        do_GET_range dl file_size form
          = .r206 (rangeStart file_size form) (rangeEnd file_size form) file_size data
        ∧ contentLength (do_GET_range dl file_size form) = data.length) := by
  have hstart0 := rangeStart_nonneg file_size form
  constructor
  · simp only [do_GET_range]
    by_cases hc : rangeStart file_size form ≥ file_size
        ∨ rangeStart file_size form < 0
        ∨ rangeEnd file_size form - rangeStart file_size form + 1 ≤ 0
    · rw [if_pos hc]
      simp only [true_iff, iff_true]
      rcases hc with h | h | h
      · exact Or.inl h
      · omega
      · exact Or.inr h
    · rw [if_neg hc]
      push_neg at hc
      constructor
      · intro h416
        cases hdl : dl (rangeStart file_size form)
            (rangeEnd file_size form - rangeStart file_size form + 1) with
        | none =>
          rw [hdl] at h416
          cases h416
        | some data =>
          rw [hdl] at h416
          cases h416
      · intro hrhs
        rcases hrhs with h | h
        · omega
        · rw [rangeLength] at h
          omega
  · intro data hdl hnot
    push_neg at hnot
    have hc : ¬ (rangeStart file_size form ≥ file_size
        ∨ rangeStart file_size form < 0
        ∨ rangeEnd file_size form - rangeStart file_size form + 1 ≤ 0) := by
      push_neg
      rw [rangeLength] at hnot
      exact ⟨hnot.1, hstart0, by omega⟩
    rw [rangeLength] at hdl
    simp only [do_GET_range]
    rw [if_neg hc, hdl]
    exact ⟨rfl, rfl⟩

/-- Witness for C8 at `size = 10`, `Range: bytes=2-5`, with a range read
returning four bytes. -/
theorem webdav_range_request_correct_witness :
    do_GET_range (fun _ l => some (List.replicate l.toNat 7)) 10
        (RangeForm.startEnd 2 5)
      = RangeResponse.r206 2 5 10 [7, 7, 7, 7] := by
  have h := (webdav_range_request_correct (fun _ l => some (List.replicate l.toNat 7))
    10 (RangeForm.startEnd 2 5)).2 [7, 7, 7, 7] rfl (by decide)
  have e1 : rangeStart 10 (RangeForm.startEnd 2 5) = 2 := rfl
  have e2 : rangeEnd 10 (RangeForm.startEnd 2 5) = 5 := rfl
  rw [e1, e2] at h
  exact h.1

end WebDAVHandler

namespace ChunkCache

/-- `ChunkCache` state (`cache.py` lines 225-357): the index
`_cache : key ↦ (size, last_access)`, `current_size`, `max_size`, the set
of keys with a backing `.chunk` file on disk, and a logical clock standing
for `time.time()` (strictly increasing across operations).
`current_size` is a Python int, embedded as `Int`. -/
structure CacheState where
  max_size : Nat
  current_size : Int
  entries : List (String × Nat × Nat)
  disk : List String
  clock : Nat
  deriving Repr, DecidableEq

/-- Sum of the recorded sizes of the live index entries. -/
def sumSizes (entries : List (String × Nat × Nat)) : Nat :=
  (entries.map fun e => e.2.1).sum

/-- Python `min(keys, key=...)` keeps the earliest minimum in iteration
order; dict iteration order is insertion order. -/
def lruFold : (String × Nat) → List (String × Nat × Nat) → String × Nat
  | best, [] => best
  | best, e :: rest =>
    if e.2.2 < best.2 then lruFold (e.1, e.2.2) rest else lruFold best rest

/-- The LRU key selection of `_evict_lru` (`cache.py` line 321). -/
def lruKey : List (String × Nat × Nat) → Option String
  | [] => none
  | e :: rest => some (lruFold (e.1, e.2.2) rest).1

/-- `ChunkCache._remove_entry` (`cache.py` lines 325-340): no-op if the key
is not cached; otherwise remove the backing file, subtract the recorded
size from `current_size`, and delete the index entry. -/
def remove_entry (st : CacheState) (key : String) : CacheState :=
  match assocFind st.entries key with
  | none => st
  | some sv =>
    { st with disk := st.disk.filter fun k => !(k == key)
              current_size := st.current_size - sv.1
              entries := assocRemove st.entries key }

/-- `ChunkCache._evict_lru` (`cache.py` lines 315-323). -/
def evict_lru (st : CacheState) : CacheState :=
  match lruKey st.entries with
  | none => st
  | some k => remove_entry st k

/-- Fueled form of the eviction loop at the top of `put` (`cache.py` lines
290-292): `while current_size + data_size > max_size and self._cache:
self._evict_lru()`.  Each iteration removes one index entry, so
`entries.length` fuel is exact: when the fuel reaches zero the index is
empty and the `while` condition is false anyway (`evictLoop_eq` below). -/
def evictLoopGo : Nat → CacheState → Nat → CacheState
  | 0, st, _ => st
  | fuel + 1, st, data_size =>
    if st.current_size + data_size > st.max_size ∧ st.entries ≠ [] then
      evictLoopGo fuel (evict_lru st) data_size
    else st

def evictLoop (st : CacheState) (data_size : Nat) : CacheState :=
  evictLoopGo st.entries.length st data_size

/-- `ChunkCache.get` (`cache.py` lines 246-278): on a miss return
unchanged; on a hit with the backing file present, touch `last_access`
in place; if the file was deleted externally, drop the index entry
without adjusting `current_size`. -/
def get (st : CacheState) (key : String) : CacheState :=
  match assocFind st.entries key with
  | none => st
  | some sv =>
    if key ∈ st.disk then
      { st with entries := assocInsert st.entries key (sv.1, st.clock) }
    else
      { st with entries := assocRemove st.entries key }

/-- `ChunkCache.put` (`cache.py` lines 280-313): evict while the new data
would overflow and the index is non-empty; decline if the data alone
exceeds `max_size`; otherwise write the file, install the index entry and
add the data size to `current_size` (an existing entry for the key is
overwritten without subtracting its old size). -/
def put (st : CacheState) (key : String) (data_size : Nat) : CacheState :=
  let st1 := evictLoop st data_size
  if data_size > st1.max_size then st1
  else
    let st2 := { st1 with
      disk := if key ∈ st1.disk then st1.disk else key :: st1.disk }
    { st2 with entries := assocInsert st2.entries key (data_size, st2.clock)
               current_size := st2.current_size + data_size }

/-- `ChunkCache.clear` (`cache.py` lines 342-346): remove every entry of a
snapshot of the key list. -/
def clear (st : CacheState) : CacheState :=
  (st.entries.map fun e => e.1).foldl remove_entry st

/-- The operations the claims quantify over. -/
inductive CacheOp
  | putOp (key : String) (size : Nat)
  | getOp (key : String)
  | clearOp
  deriving Repr, DecidableEq

/-- One operation followed by a clock tick. -/
def stepOp (st : CacheState) : CacheOp → CacheState
  | .putOp k n => let st1 := put st k n; { st1 with clock := st1.clock + 1 }
  | .getOp k => let st1 := get st k; { st1 with clock := st1.clock + 1 }
  | .clearOp => let st1 := clear st; { st1 with clock := st1.clock + 1 }

/-- Run an operation sequence from the freshly initialized cache
(`__init__`, `cache.py` lines 228-244). -/
def runOps (maxSize : Nat) (ops : List CacheOp) : CacheState :=
  ops.foldl stepOp
    { max_size := maxSize, current_size := 0, entries := [], disk := [], clock := 0 }

end ChunkCache

section AssocHelpers3

variable {κ ν : Type} [DecidableEq κ]

theorem assocRemove_sublist (l : List (κ × ν)) (k : κ) :
    (assocRemove l k).Sublist l := by
  induction l with
  | nil => exact List.Sublist.refl []
  | cons e rest ih =>
    by_cases he : e.1 = k
    · simp only [assocRemove, he, if_true]
      exact ih.cons e
    · simp only [assocRemove, he, if_false]
      exact ih.cons₂ e

theorem assocRemove_length_le (l : List (κ × ν)) (k : κ) :
    (assocRemove l k).length ≤ l.length :=
  (assocRemove_sublist l k).length_le

theorem assocRemove_length_lt (l : List (κ × ν)) (k : κ)
    (h : (assocFind l k).isSome) : (assocRemove l k).length < l.length := by
  induction l with
  | nil => simp [assocFind] at h
  | cons e rest ih =>
    by_cases he : e.1 = k
    · simp only [assocRemove, he, if_true]
      have := assocRemove_length_le rest k
      simp only [List.length_cons]
      omega
    · simp only [assocFind, he, if_false] at h
      simp only [assocRemove, he, if_false, List.length_cons]
      have := ih h
      omega

theorem assocFind_isSome_of_mem (l : List (κ × ν)) (k : κ)
    (h : k ∈ l.map fun e => e.1) : (assocFind l k).isSome := by
  induction l with
  | nil => simp at h
  | cons e rest ih =>
    by_cases he : e.1 = k
    · simp [assocFind, he]
    · simp only [List.map_cons, List.mem_cons] at h
      rcases h with h | h
      · exact absurd h.symm he
      · simp only [assocFind, he, if_false]
        exact ih h

theorem assocRemove_of_not_mem (l : List (κ × ν)) (k : κ)
    (h : k ∉ l.map fun e => e.1) : assocRemove l k = l := by
  induction l with
  | nil => rfl
  | cons e rest ih =>
    simp only [List.map_cons, List.mem_cons, not_or] at h
    have he : e.1 ≠ k := fun hc => h.1 hc.symm
    simp only [assocRemove, he, if_false]
    rw [ih h.2]

theorem assocRemove_keysNodup (l : List (κ × ν)) (k : κ)
    (h : (l.map fun e => e.1).Nodup) : ((assocRemove l k).map fun e => e.1).Nodup :=
  h.sublist ((assocRemove_sublist l k).map fun e => e.1)

end AssocHelpers3

namespace ChunkCache

theorem sumSizes_remove (l : List (String × Nat × Nat)) (k : String)
    (sv : Nat × Nat) (hnodup : (l.map fun e => e.1).Nodup)
    (hfind : assocFind l k = some sv) :
    sumSizes (assocRemove l k) = sumSizes l - sv.1 ∧ sv.1 ≤ sumSizes l := by
  induction l with
  | nil => exact Option.noConfusion hfind
  | cons e rest ih =>
    simp only [List.map_cons, List.nodup_cons] at hnodup
    by_cases he : e.1 = k
    · simp only [assocFind, he, if_true, Option.some.injEq] at hfind
      subst hfind
      simp only [assocRemove, he, if_true]
      rw [assocRemove_of_not_mem rest k (by rw [← he]; exact hnodup.1)]
      simp [sumSizes]
    · simp only [assocFind, he, if_false] at hfind
      simp only [assocRemove, he, if_false]
      have := ih hnodup.2 hfind
      simp only [sumSizes, List.map_cons, List.sum_cons] at this ⊢
      omega

theorem lruFold_key_mem (best : String × Nat) (l : List (String × Nat × Nat)) :
    (lruFold best l).1 = best.1 ∨ (lruFold best l).1 ∈ l.map fun e => e.1 := by
  induction l generalizing best with
  | nil => exact Or.inl rfl
  | cons e rest ih =>
    simp only [lruFold, List.map_cons, List.mem_cons]
    by_cases hlt : e.2.2 < best.2
    · rw [if_pos hlt]
      rcases ih (e.1, e.2.2) with h | h
      · exact Or.inr (Or.inl h)
      · exact Or.inr (Or.inr h)
    · rw [if_neg hlt]
      rcases ih best with h | h
      · exact Or.inl h
      · exact Or.inr (Or.inr h)

theorem lruKey_mem (entries : List (String × Nat × Nat)) (k : String)
    (h : lruKey entries = some k) : k ∈ entries.map fun e => e.1 := by
  cases entries with
  | nil => exact Option.noConfusion h
  | cons e rest =>
    simp only [lruKey, Option.some.injEq] at h
    subst h
    rcases lruFold_key_mem (e.1, e.2.2) rest with h | h
    · simp [h]
    · simp only [List.map_cons, List.mem_cons]
      exact Or.inr h

theorem evict_lru_length (st : CacheState) (h : st.entries ≠ []) :
    (evict_lru st).entries.length < st.entries.length := by
  rw [evict_lru]
  cases hk : lruKey st.entries with
  | none =>
    cases hst : st.entries with
    | nil => exact absurd hst h
    | cons e rest =>
      rw [hst] at hk
      exact Option.noConfusion hk
  | some k =>
    have hmem := lruKey_mem st.entries k hk
    have hfind := assocFind_isSome_of_mem st.entries k hmem
    simp only [remove_entry]
    cases hf : assocFind st.entries k with
    | none =>
      rw [hf] at hfind
      exact absurd hfind (by simp)
    | some sv =>
      simp only
      exact assocRemove_length_lt st.entries k (by rw [hf]; simp)

theorem evictLoopGo_congr (fuel₁ : Nat) :
    ∀ (fuel₂ : Nat) (st : CacheState) (n : Nat),
      st.entries.length ≤ fuel₁ → st.entries.length ≤ fuel₂ →
      evictLoopGo fuel₁ st n = evictLoopGo fuel₂ st n := by
  induction fuel₁ with
  | zero =>
    intro fuel₂ st n h1 h2
    have hnil : st.entries = [] := List.eq_nil_of_length_eq_zero (by omega)
    cases fuel₂ with
    | zero => rfl
    | succ f =>
      rw [evictLoopGo, evictLoopGo, if_neg]
      intro hc
      exact hc.2 hnil
  | succ f ih =>
    intro fuel₂ st n h1 h2
    cases fuel₂ with
    | zero =>
      have hnil : st.entries = [] := List.eq_nil_of_length_eq_zero (by omega)
      rw [evictLoopGo, evictLoopGo, if_neg]
      intro hc
      exact hc.2 hnil
    | succ f₂ =>
      rw [evictLoopGo, evictLoopGo]
      by_cases hc : st.current_size + n > st.max_size ∧ st.entries ≠ []
      · rw [if_pos hc, if_pos hc]
        have hlt := evict_lru_length st hc.2
        exact ih f₂ (evict_lru st) n (by omega) (by omega)
      · rw [if_neg hc, if_neg hc]

/-- The fueled loop satisfies the `while` unfolding equation. -/
theorem evictLoop_eq (st : CacheState) (n : Nat) :
    evictLoop st n =
      if st.current_size + n > st.max_size ∧ st.entries ≠ [] then
        evictLoop (evict_lru st) n
      else st := by
  rw [evictLoop]
  by_cases hc : st.current_size + n > st.max_size ∧ st.entries ≠ []
  · rw [if_pos hc]
    cases hst : st.entries.length with
    | zero =>
      exact absurd (List.eq_nil_of_length_eq_zero hst) hc.2
    | succ f =>
      rw [evictLoopGo, if_pos hc, evictLoop]
      have hlt := evict_lru_length st hc.2
      exact evictLoopGo_congr f _ (evict_lru st) n (by omega) le_rfl
  · rw [if_neg hc]
    cases hst : st.entries.length with
    | zero => rfl
    | succ f => rw [evictLoopGo, if_neg hc]

end ChunkCache

namespace ChunkCache

theorem evict_lru_inv (st : CacheState)
    (hinv : st.current_size = sumSizes st.entries)
    (hnodup : (st.entries.map fun e => e.1).Nodup) :
    (evict_lru st).current_size = sumSizes (evict_lru st).entries
    ∧ ((evict_lru st).entries.map fun e => e.1).Nodup
    ∧ (evict_lru st).max_size = st.max_size := by
  rw [evict_lru]
  cases hk : lruKey st.entries with
  | none => exact ⟨hinv, hnodup, rfl⟩
  | some k =>
    have hmem := lruKey_mem st.entries k hk
    have hfind := assocFind_isSome_of_mem st.entries k hmem
    simp only [remove_entry]
    cases hf : assocFind st.entries k with
    | none =>
      rw [hf] at hfind
      exact absurd hfind (by simp)
    | some sv =>
      have hsum := sumSizes_remove st.entries k sv hnodup hf
      refine ⟨?_, assocRemove_keysNodup _ _ hnodup, rfl⟩
      simp only
      omega

theorem evictLoop_empties (st : CacheState) (n : Nat)
    (hinv : st.current_size = sumSizes st.entries)
    (hnodup : (st.entries.map fun e => e.1).Nodup)
    (hbig : st.max_size < n) :
    (evictLoop st n).entries = []
    ∧ (evictLoop st n).current_size = 0
    ∧ (evictLoop st n).max_size = st.max_size := by
  rw [evictLoop_eq]
  by_cases hne : st.entries = []
  · rw [if_neg fun hc => hc.2 hne]
    refine ⟨hne, ?_, rfl⟩
    rw [hinv, hne]
    rfl
  · have hcur : (0 : Int) ≤ st.current_size := by
      rw [hinv]
      exact Int.natCast_nonneg _
    rw [if_pos ⟨by omega, hne⟩]
    have hpre := evict_lru_inv st hinv hnodup
    have ih := evictLoop_empties (evict_lru st) n hpre.1 hpre.2.1
      (by rw [hpre.2.2]; exact hbig)
    exact ⟨ih.1, ih.2.1, by rw [ih.2.2, hpre.2.2]⟩
  termination_by st.entries.length
  decreasing_by exact evict_lru_length st hne

/-- C10 amended: a `put` whose data exceeds `max_size` on a non-empty
cache evicts every entry (emptying the index), decreases `current_size`
by the sum of the evicted entries' recorded sizes — hence to `0` whenever
`current_size` was accounting-consistent beforehand — and then declines
to cache the key. -/
theorem oversized_put_evicts_all (st : CacheState) (key : String) (n : Nat)
    (hinv : st.current_size = sumSizes st.entries)
    (hnodup : (st.entries.map fun e => e.1).Nodup)
    (_hne : st.entries ≠ [])
    (hbig : st.max_size < n) :
    (put st key n).entries = []
    ∧ (put st key n).current_size = 0
    ∧ assocFind (put st key n).entries key = none := by
  have h := evictLoop_empties st n hinv hnodup hbig
  simp only [put]
  rw [if_pos (by rw [h.2.2]; exact hbig)]
  refine ⟨h.1, h.2.1, ?_⟩
  rw [h.1]
  rfl

/-- C9: the `ChunkCache` invariants fail on a reachable state: after
`put("a", 5 bytes); put("a", 5 bytes); put("b", 6 bytes)` with
`max_size = 10`, the duplicate-key `put` has double-counted the size of
`"a"` (`cache.py` line 310 adds the new size without subtracting the
overwritten entry's), so `current_size = 11` exceeds `max_size = 10`
while the live entries sum to `6`. -/
theorem chunkcache_size_invariant_violated :
    (runOps 10 [.putOp "a" 5, .putOp "a" 5, .putOp "b" 6]).current_size = 11
    ∧ (runOps 10 [.putOp "a" 5, .putOp "a" 5, .putOp "b" 6]).max_size = 10
    ∧ sumSizes (runOps 10 [.putOp "a" 5, .putOp "a" 5, .putOp "b" 6]).entries = 6 := by
  exact ⟨rfl, rfl, rfl⟩

/-- C10 counterexample: after the duplicate-key trace
`put("a", 5); put("a", 5)` the cache is non-empty with
`current_size = 10`; the oversized `put("big", 11)` then empties the
index, but leaves `current_size = 5`, not `0` as the claim states. -/
theorem oversized_put_current_size_cex :
    (runOps 10 [.putOp "a" 5, .putOp "a" 5, .putOp "big" 11]).entries = []
    ∧ (runOps 10 [.putOp "a" 5, .putOp "a" 5, .putOp "big" 11]).current_size = 5
    ∧ ¬ (runOps 10 [.putOp "a" 5, .putOp "a" 5, .putOp "big" 11]).current_size = 0 := by
  exact ⟨rfl, rfl, by decide⟩

/-- Witness for the amended C10 theorem on the accounting-consistent state
reached by `put("a", 5)` alone. -/
theorem oversized_put_evicts_all_witness :
    (put (runOps 10 [.putOp "a" 5]) "big" 11).entries = []
    ∧ (put (runOps 10 [.putOp "a" 5]) "big" 11).current_size = 0 := by
  have h := oversized_put_evicts_all (runOps 10 [.putOp "a" 5]) "big" 11
    rfl (by decide) (by decide) (by decide)
  exact ⟨h.1, h.2.1⟩

end ChunkCache
